import Mathlib

/-!
# Verification of the kriging kernel/distance engine

Shallow embedding of `smt/utils/kriging_utils.py` over the reals, together
with theorems settling the frozen claims about it.

Conventions used throughout:
* a numpy array of shape `(P, C)` is embedded as a function `ℕ → ℕ → ℝ`
  together with the explicit dimensions `P` (rows) and `C` (columns);
  a column vector of shape `(P, 1)` is embedded as `ℕ → ℝ`;
* the `nb_limit`-chunked `while` loops of the kernel functions are embedded
  as fuelled slice-update loops over the row index (`chunkWhile`), with the
  fuel chosen exactly large enough for the loop's exit condition, mirroring
  the source's `while i * nb_limit <= d.shape[0]` loops;
* Python exceptions are embedded as `Except PyErr`;
* in-place numpy writes that are visible to the caller are embedded as
  explicit post-state functions (see the `gower` definitions).
-/

open Finset

noncomputable section

/-- Python error values raised by the embedded code: `ValueError`, a plain
`Exception`, and `ZeroDivisionError`. -/
inductive PyErr where
  | valueError (msg : String)
  | genericError (msg : String)
  | zeroDivisionError
deriving DecidableEq

/-- The chunk size `nb_limit = int(1e4)` used by every chunked loop. -/
def nbLimit : ℕ := 10 ^ 4

/-- One numpy slice assignment `r[i*nb:(i+1)*nb, 0] = g(r[i*nb:(i+1)*nb, 0])`
on a column vector with `P` rows: rows in the slice (clamped to `P`) are
updated through `g`, the rest keep their value. -/
def npSliceSet (P nb i : ℕ) (g : ℕ → ℝ → ℝ) (r : ℕ → ℝ) : ℕ → ℝ :=
  fun k => if i * nb ≤ k ∧ k < (i + 1) * nb ∧ k < P then g k (r k) else r k

/-- The loop `while i * nb <= P: r[i*nb:(i+1)*nb] = ...; i += 1`, with explicit
fuel.  `chunkWhile P nb g fuel i r` runs from loop counter `i` on state `r`. -/
def chunkWhile (P nb : ℕ) (g : ℕ → ℝ → ℝ) : ℕ → ℕ → (ℕ → ℝ) → (ℕ → ℝ)
  | 0, _, r => r
  | fuel + 1, i, r =>
      if i * nb ≤ P then chunkWhile P nb g fuel (i + 1) (npSliceSet P nb i g r) else r

/-- A full chunked pass over all `P` rows starting from counter `0`; the fuel
`P / nb + 2` is enough for the exit condition `i * nb > P` to be reached. -/
def chunkPass (P nb : ℕ) (g : ℕ → ℝ → ℝ) (r0 : ℕ → ℝ) : ℕ → ℝ :=
  chunkWhile P nb g (P / nb + 2) 0 r0

/-- `np.sum(theta.reshape(1, n_components) * d[slice, :], axis=1)` for row `k`:
the inner product of `theta` with row `k` of `d` over `C` components. -/
def theta_dot (C : ℕ) (θ : ℕ → ℝ) (d : ℕ → ℕ → ℝ) (k : ℕ) : ℝ :=
  ∑ j ∈ Finset.range C, θ j * d k j

/-- Value mode of `abs_exp` (lines 562-575): chunked assignment of
`exp(-sum(theta * d_k))` over all rows. -/
def abs_exp_r (P C : ℕ) (θ : ℕ → ℝ) (d : ℕ → ℕ → ℝ) : ℕ → ℝ :=
  chunkPass P nbLimit (fun k _ => Real.exp (-(theta_dot C θ d k))) (fun _ => 0)

/-- Gradient mode of `abs_exp` (lines 578-584): second chunked pass multiplying
each row of the value vector by `-d[k, grad_ind]`. -/
def abs_exp_grad (P C : ℕ) (θ : ℕ → ℝ) (d : ℕ → ℕ → ℝ) (gi : ℕ) : ℕ → ℝ :=
  chunkPass P nbLimit (fun k v => -d k gi * v) (abs_exp_r P C θ d)

/-- Hessian mode of `abs_exp` (lines 587-593): third chunked pass multiplying
by `-d[k, hess_ind]`. -/
def abs_exp_grad_hess (P C : ℕ) (θ : ℕ → ℝ) (d : ℕ → ℕ → ℝ) (gi hi : ℕ) : ℕ → ℝ :=
  chunkPass P nbLimit (fun k v => -d k hi * v) (abs_exp_grad P C θ d gi)

/-- Value mode of `squar_exp` (lines 633-647); the source body is textually the
same as `abs_exp`'s (the squaring already happened in
`componentwise_distance`). -/
def squar_exp_r (P C : ℕ) (θ : ℕ → ℝ) (d : ℕ → ℕ → ℝ) : ℕ → ℝ :=
  chunkPass P nbLimit (fun k _ => Real.exp (-(theta_dot C θ d k))) (fun _ => 0)

/-- Gradient mode of `squar_exp` (lines 651-657). -/
def squar_exp_grad (P C : ℕ) (θ : ℕ → ℝ) (d : ℕ → ℕ → ℝ) (gi : ℕ) : ℕ → ℝ :=
  chunkPass P nbLimit (fun k v => -d k gi * v) (squar_exp_r P C θ d)

/-- Hessian mode of `squar_exp` (lines 660-666). -/
def squar_exp_grad_hess (P C : ℕ) (θ : ℕ → ℝ) (d : ℕ → ℕ → ℝ) (gi hi : ℕ) : ℕ → ℝ :=
  chunkPass P nbLimit (fun k v => -d k hi * v) (squar_exp_grad P C θ d gi)

/-- Value mode of `matern52` (lines 717-728):
`(1 + sqrt 5 * ll + 5/3 * ll ** 2).prod(axis=1) * exp(-sqrt 5 * ll.sum(axis=1))`
with `ll = theta * d[k]`. -/
def matern52_r (P C : ℕ) (θ : ℕ → ℝ) (d : ℕ → ℕ → ℝ) : ℕ → ℝ :=
  chunkPass P nbLimit
    (fun k _ =>
      (∏ j ∈ Finset.range C,
          (1 + Real.sqrt 5 * (θ j * d k j) + 5 / 3 * (θ j * d k j) ^ 2)) *
        Real.exp (-Real.sqrt 5 * ∑ j ∈ Finset.range C, θ j * d k j))
    (fun _ => 0)

/-- `fact_1` of the `matern52` gradient pass (lines 736-742). -/
def m52_fact1 (θ : ℕ → ℝ) (d : ℕ → ℕ → ℝ) (gi k : ℕ) : ℝ :=
  Real.sqrt 5 * d k gi + 10 / 3 * θ gi * d k gi ^ 2

/-- `fact_2` of the `matern52` gradient pass (lines 743-752). -/
def m52_fact2 (θ : ℕ → ℝ) (d : ℕ → ℕ → ℝ) (gi k : ℕ) : ℝ :=
  1 + Real.sqrt 5 * θ gi * d k gi + 5 / 3 * θ gi ^ 2 * d k gi ^ 2

/-- `fact_3` of the `matern52` gradient pass (line 753). -/
def m52_fact3 (d : ℕ → ℕ → ℝ) (gi k : ℕ) : ℝ :=
  Real.sqrt 5 * d k gi

/-- Gradient mode of `matern52` (lines 733-758): chunked pass multiplying the
value vector by `fact_1 / fact_2 - fact_3`. -/
def matern52_grad (P C : ℕ) (θ : ℕ → ℝ) (d : ℕ → ℕ → ℝ) (gi : ℕ) : ℕ → ℝ :=
  chunkPass P nbLimit
    (fun k v => (m52_fact1 θ d gi k / m52_fact2 θ d gi k - m52_fact3 d gi k) * v)
    (matern52_r P C θ d)

/-- Hessian mode of `matern52` (lines 761-799): the chunked pass multiplies by
the `hess_ind` factor and, when `hess_ind == grad_ind`, adds the combined term
`((fact_4 - fact_1^2) / fact_2^2) * M52` read from the saved value copy. -/
def matern52_grad_hess (P C : ℕ) (θ : ℕ → ℝ) (d : ℕ → ℕ → ℝ) (gi hi : ℕ) : ℕ → ℝ :=
  chunkPass P nbLimit
    (fun k v =>
      let base := (m52_fact1 θ d hi k / m52_fact2 θ d hi k - m52_fact3 d hi k) * v
      if hi = gi then
        (10 / 3 * d k hi ^ 2 * m52_fact2 θ d hi k - m52_fact1 θ d hi k ^ 2) /
            m52_fact2 θ d hi k ^ 2 * matern52_r P C θ d k + base
      else base)
    (matern52_grad P C θ d gi)

/-- Value mode of `matern32` (lines 874-887):
`(1 + sqrt 3 * ll).prod(axis=1) * exp(-sqrt 3 * ll.sum(axis=1))`. -/
def matern32_r (P C : ℕ) (θ : ℕ → ℝ) (d : ℕ → ℕ → ℝ) : ℕ → ℝ :=
  chunkPass P nbLimit
    (fun k _ =>
      (∏ j ∈ Finset.range C, (1 + Real.sqrt 3 * (θ j * d k j))) *
        Real.exp (-Real.sqrt 3 * ∑ j ∈ Finset.range C, θ j * d k j))
    (fun _ => 0)

/-- `fact_1` of the `matern32` gradient pass (lines 894-903). -/
def m32_fact1 (θ : ℕ → ℝ) (d : ℕ → ℕ → ℝ) (gi k : ℕ) : ℝ :=
  1 / (1 + Real.sqrt 3 * θ gi * d k gi) - 1

/-- Gradient mode of `matern32` (lines 892-911). -/
def matern32_grad (P C : ℕ) (θ : ℕ → ℝ) (d : ℕ → ℕ → ℝ) (gi : ℕ) : ℕ → ℝ :=
  chunkPass P nbLimit
    (fun k v => m32_fact1 θ d gi k * v * Real.sqrt 3 * d k gi)
    (matern32_r P C θ d)

/-- Hessian mode of `matern32` (lines 914-945): multiplies by the `hess_ind`
factor and, when `grad_ind == hess_ind`, subtracts `fact_3 * M32` with the
saved value copy. -/
def matern32_grad_hess (P C : ℕ) (θ : ℕ → ℝ) (d : ℕ → ℕ → ℝ) (gi hi : ℕ) : ℕ → ℝ :=
  chunkPass P nbLimit
    (fun k v =>
      let base := v * m32_fact1 θ d hi k * Real.sqrt 3 * d k hi
      if gi = hi then
        base - 3 * d k hi ^ 2 / (1 + Real.sqrt 3 * θ hi * d k hi) ^ 2 *
          matern32_r P C θ d k
      else base)
    (matern32_grad P C θ d gi)

/-- Error message of the `act_exp` theta-length validation (line 1029). -/
def msg_theta_multiple : String := "Length of theta must be a multiple of n_components"

/-- Error message of the `act_exp` spatial-derivative refusal (line 1060). -/
def msg_jacobian_not_available : String := "Jacobians are not available for this correlation kernel"

/-- `act_exp` (lines 997-1062) with `grad_ind`/`hess_ind`/`d_x` left at `None`,
keeping the `derivative_params` flag.  `theta` of length `nθ` is reshaped
row-major to `(nθ/C, C)` and transposed, so `A[l][j] = theta[j*C + l]` and
`d_A[k][j] = sum_l d[k][l] * theta[j*C + l]`.  With `C = 0` the length test
`len(theta) % n_components` raises `ZeroDivisionError`; an invalid length
raises a plain `Exception`; a supplied `derivative_params` raises `ValueError`
after the value computation. -/
def act_exp (P C nθ : ℕ) (θ : ℕ → ℝ) (d : ℕ → ℕ → ℝ) (derivative_params : Bool) :
    Except PyErr (ℕ → ℝ) :=
  if C = 0 then Except.error PyErr.zeroDivisionError
  else if nθ % C ≠ 0 then Except.error (PyErr.genericError msg_theta_multiple)
  else if derivative_params then Except.error (PyErr.valueError msg_jacobian_not_available)
  else
    Except.ok fun k =>
      Real.exp (-(1 / 2) *
        ∑ j ∈ Finset.range (nθ / C), (∑ l ∈ Finset.range C, d k l * θ (j * C + l)) ^ 2)

/-! ## Distance engine -/

/-- Row `i` of a sample matrix embedded as a list of rows. -/
def row (X : List (List ℝ)) (i : ℕ) : List ℝ :=
  X.getD i []

/-- Componentwise difference of two rows, `X[i] - Y[j]`. -/
def subRow (x y : List ℝ) : List ℝ :=
  List.zipWith (fun a b => a - b) x y

/-- The slice appended by iteration `k` of the self-mode loop of
`cross_distances` (lines 116-121): pairs `(k, j)` for `j = k+1 .. n-1` with
rows `X[k] - X[j]`. -/
def selfBlock (X : List (List ℝ)) (k : ℕ) : List ((ℕ × ℕ) × List ℝ) :=
  (List.range' (k + 1) (X.length - (k + 1))).map
    (fun j => ((k, j), subRow (row X k) (row X j)))

/-- Self mode of `cross_distances` (lines 109-121): the loop over
`k in range(n_samples - 1)` fills consecutive slices `ll_0:ll_1` of the
preallocated `ij` and `D`; the result is the concatenation of the blocks in
loop order.  Each list element carries one `(i, j)` pair and its `D` row. -/
def cross_distances_self (X : List (List ℝ)) : List ((ℕ × ℕ) × List ℝ) :=
  (List.range (X.length - 1)).foldl (fun acc k => acc ++ selfBlock X k) []

/-- The enumeration the spec describes for self mode: all pairs `i < j` in
nested ascending order (outer `i`, inner `j`), rows `X[i] - X[j]`. -/
def cross_distances_selfSpec (X : List (List ℝ)) : List ((ℕ × ℕ) × List ℝ) :=
  (List.range X.length).flatMap (selfBlock X)

/-- Cross mode of `cross_distances` (lines 122-135): `k`-th entry is the pair
`(k // n_y, k % n_y)` with row `X[k // n_y] - Y[k % n_y]`. -/
def cross_distances_cross (X Y : List (List ℝ)) : List ((ℕ × ℕ) × List ℝ) :=
  (List.range (X.length * Y.length)).map
    (fun k => ((k / Y.length, k % Y.length),
               subRow (row X (k / Y.length)) (row Y (k % Y.length))))

/-- `differences` (lines 392-396): the broadcast difference
`X[:, None, :] - Y[None, :, :]` reshaped to `(n*m, dim)`; row `k` is
`X[k // m] - Y[k % m]`. -/
def differences (X Y : List (List ℝ)) : List (List ℝ) :=
  (List.range (X.length * Y.length)).map
    (fun k => subRow (row X (k / Y.length)) (row Y (k % Y.length)))

/-! ## Gower componentwise distances

The mixed matrix is embedded as `X : ℕ → ℕ → ℝ` with `n` rows and `d`
columns, plus the boolean categorical mask `cat_features`.  `np.nanmax` /
`np.nanmin` over a nonempty float column are embedded by structural
recursion over the column list (there are no NaNs in the real model, so the
`isnan` branches of lines 305-308 are dead). -/

/-- Maximum of a list of reals (`np.nanmax`); `0` on the empty list, which the
source never queries. -/
def listMax : List ℝ → ℝ
  | [] => 0
  | [a] => a
  | a :: b :: t => max a (listMax (b :: t))

/-- Minimum of a list of reals (`np.nanmin`). -/
def listMin : List ℝ → ℝ
  | [] => 0
  | [a] => a
  | a :: b :: t => min a (listMin (b :: t))

/-- Column `c` of the reference matrix as a list over its `n` rows. -/
def colList (n : ℕ) (X : ℕ → ℕ → ℝ) (c : ℕ) : List ℝ :=
  (List.range n).map (fun i => X i c)

/-- `num_max[col]` (lines 300-309): the column maximum of the reference set. -/
def gower_num_max (n : ℕ) (X : ℕ → ℕ → ℝ) (c : ℕ) : ℝ :=
  listMax (colList n X c)

/-- `num_ranges[col]` (line 310): `1 - min/max` when `max != 0`, else `0`. -/
def gower_num_range (n : ℕ) (X : ℕ → ℕ → ℝ) (c : ℕ) : ℝ :=
  if gower_num_max n X c ≠ 0 then 1 - listMin (colList n X c) / gower_num_max n X c
  else 0

/-- The max-normalized continuous value (line 313):
`np.divide(Z_num, num_max, out=zeros, where=num_max != 0)`. -/
def gower_znum (n : ℕ) (X : ℕ → ℕ → ℝ) (c k : ℕ) : ℝ :=
  if gower_num_max n X c ≠ 0 then X k c / gower_num_max n X c else 0

/-- Entry `c` of the self-mode Gower distance row for the pair `(k, j)`:
categorical columns give the 0/1 mismatch indicator (lines 363-370),
continuous columns give `abs_delta / num_ranges` guarded by
`where=num_ranges != 0` (lines 347-356); the two groups are reassembled into
the original column positions (lines 372-374). -/
def gower_pair_entry (n : ℕ) (X : ℕ → ℕ → ℝ) (catf : ℕ → Bool) (k j c : ℕ) : ℝ :=
  if catf c then (if X k c = X j c then 0 else 1)
  else if gower_num_range n X c ≠ 0 then
    |gower_znum n X c k - gower_znum n X c j| / gower_num_range n X c
  else 0

/-- One Gower distance row for the pair `(k, j)` over the `d` columns. -/
def gower_row (n d : ℕ) (X : ℕ → ℕ → ℝ) (catf : ℕ → Bool) (k j : ℕ) : List ℝ :=
  (List.range d).map (gower_pair_entry n X catf k j)

/-- The `D` output of self-mode `gower_componentwise_distances`
(lines 340-376): pair rows in the same nested `(k, j)` order as
`cross_distances`. -/
def gower_componentwise_distances_self (n d : ℕ) (X : ℕ → ℕ → ℝ) (catf : ℕ → Bool) :
    List (List ℝ) :=
  (List.range (n - 1)).foldl
    (fun acc k => acc ++ (List.range' (k + 1) (n - (k + 1))).map (gower_row n d X catf k))
    []

/-- Cross-mode normalized continuous value: the concatenated `Z` (rows of `X`
then `Y`) is divided columnwise by `num_max` computed from `Y`'s `m` rows
(lines 301, 313), guarded by `where=num_max != 0` with `out=zeros`.  `Z` is
the matrix whose entry is being normalized; the normalizer comes from `Y`. -/
def gower_cross_znum (m : ℕ) (Y Z : ℕ → ℕ → ℝ) (c k : ℕ) : ℝ :=
  if gower_num_max m Y c ≠ 0 then Z k c / gower_num_max m Y c else 0

/-- Entry `c` of the cross-mode (`y` given) Gower distance row for the row
pair `(i, j)` (lines 377-389): `D = abs(X_norma[i] - Y_norma[j])`, then
categorical columns are overwritten by the `> 0.5` threshold of the raw
absolute difference (line 381: `X_norma`/`Y_norma` keep categorical columns
raw), and continuous columns are divided by `num_ranges` guarded by
`where=num_ranges != 0` with `out=zeros` (lines 382-387). -/
def gower_cross_pair_entry (m : ℕ) (X Y : ℕ → ℕ → ℝ) (catf : ℕ → Bool) (i j c : ℕ) : ℝ :=
  if catf c then (if 0.5 < |X i c - Y j c| then 1 else 0)
  else if gower_num_range m Y c ≠ 0 then
    |gower_cross_znum m Y X c i - gower_cross_znum m Y Y c j| / gower_num_range m Y c
  else 0

/-- The dense `D` output of cross-mode `gower_componentwise_distances`
(lines 377-389): the broadcast difference reshaped to `(n*m, d)`, row `k`
being the pair `(k // m, k % m)`. -/
def gower_componentwise_distances_cross (n m d : ℕ) (X Y : ℕ → ℕ → ℝ) (catf : ℕ → Bool) :
    List (List ℝ) :=
  (List.range (n * m)).map (fun k =>
    (List.range d).map (gower_cross_pair_entry m X Y catf (k / m) (k % m)))

/-! ## Caller-visible post-states (aliasing model)

`gower_componentwise_distances` first rebinds `X = X.astype(np.float)`
(line 264), which copies, so the caller's `X` is never written.  When `y` is
given, however, `Y = y` (line 272) aliases the caller's array and
`Y_norma = Y; Y_norma[:, ~cat_features] = Y_num` (lines 331-333) writes the
max-normalized continuous columns back into it in place.  `cross_distances`
and `differences` only read their arguments. -/

/-- Post-state of the caller's `X` after any of the read-only operations and
after Gower (self or cross mode): unchanged. -/
def post_X_unchanged (X : List (List ℝ)) : List (List ℝ) := X

/-- Post-state of the caller's `X` for the function-embedded Gower input:
unchanged (the `astype` copy shields it). -/
def gower_post_X (X : ℕ → ℕ → ℝ) : ℕ → ℕ → ℝ := X

/-- Post-state of the caller's `y` after cross-mode
`gower_componentwise_distances` on `m` rows and `d` columns: continuous
columns are overwritten with `np.divide(Y, num_max, out=0, where=num_max!=0)`
(lines 313, 326-333); categorical columns and out-of-bounds indices keep
their values. -/
def gower_cross_post_Y (m d : ℕ) (Y : ℕ → ℕ → ℝ) (catf : ℕ → Bool) : ℕ → ℕ → ℝ :=
  fun i c =>
    if i < m ∧ c < d ∧ catf c = false then
      (if gower_num_max m Y c ≠ 0 then Y i c / gower_num_max m Y c else 0)
    else Y i c

/-! ## `squar_exp` full-Hessian path (lines 668-686)

With `grad_ind = hess_ind = None` and both `derivative_params` and
`hess_params` supplied, the source transposes `r` to shape `(1, P)`, then
allocates `d2r = np.zeros([r.shape[0], n_components, n_components])` — first
dimension `1`, not `P` — and loops `for k in range(r.shape[0])`, i.e. only
`k = 0`, storing `... * r[k]` where `r[k]` is the whole length-`P` row.
Assigning that row to the scalar slot `d2r[k, i, j]` succeeds only when
`P = 1` (a length-1 array collapses to a scalar); any other `P` raises
`ValueError` from the broadcast. -/

/-- A numpy 3-d array with explicit dimensions. -/
structure Arr3 where
  d0 : ℕ
  d1 : ℕ
  d2 : ℕ
  entry : ℕ → ℕ → ℕ → ℝ

/-- numpy's error message for assigning a non-scalar to a scalar slot. -/
def msg_set_element_sequence : String := "setting an array element with a sequence."

/-- The `squar_exp` call with both `derivative_params` and `hess_params`
supplied (and `grad_ind = hess_ind = None`).  `dd_grad` is
`derivative_params["dd"]` (used only for the discarded `dr`), `dd_hess` is
`hess_params["dd"]`. -/
def squar_exp_hess (P C : ℕ) (θ : ℕ → ℝ) (d dd_grad dd_hess : ℕ → ℕ → ℝ) :
    Except PyErr Arr3 :=
  if P = 1 then
    Except.ok
      ⟨1, C, C, fun k i j =>
        if i = j then -(2 * θ i - dd_hess k i * dd_hess k i) * squar_exp_r P C θ d 0
        else dd_hess k i * dd_hess k j * squar_exp_r P C θ d 0⟩
  else Except.error (PyErr.valueError msg_set_element_sequence)

/-! ## `componentwise_distance` and `componentwise_distance_PLS` -/

/-- A numpy 2-d array with explicit dimensions. -/
structure NMat where
  rows : ℕ
  cols : ℕ
  entry : ℕ → ℕ → ℝ

/-- Slice assignment `D_corr[i*nb:(i+1)*nb, :] = f(...)` on an `NMat`. -/
def nmatSliceSet (nb i : ℕ) (f : ℕ → ℕ → ℝ) (M : NMat) : NMat :=
  ⟨M.rows, M.cols,
   fun k c => if i * nb ≤ k ∧ k < (i + 1) * nb ∧ k < M.rows then f k c else M.entry k c⟩

/-- The `while True` loop of `componentwise_distance` /
`componentwise_distance_PLS` in value mode (lines 1247-1264 and 1332-1346):
exit with the accumulated `D_corr` as soon as `i * nb_limit > P`, otherwise
write the next slice.  Fuel-indexed; `none` means the fuel ran out before the
loop returned. -/
def cd_value_loop (P nb : ℕ) (f : ℕ → ℕ → ℝ) : ℕ → ℕ → NMat → Option NMat
  | 0, _, _ => none
  | fuel + 1, i, M =>
      if i * nb > P then some M else cd_value_loop P nb f fuel (i + 1) (nmatSliceSet nb i f M)

/-- The slice body of `componentwise_distance` in value mode: `D**2` for
`squar_exp`, `D` for `act_exp`, `abs(D)` otherwise. -/
def cd_value_body (corr : String) (D : ℕ → ℕ → ℝ) : ℕ → ℕ → ℝ :=
  fun k c => if corr = "squar_exp" then D k c ^ 2 else if corr = "act_exp" then D k c else |D k c|

/-- Value mode of `componentwise_distance` (lines 1244-1264): start from
`np.zeros((P, dim))` and run the chunked loop with fuel `P / nb_limit + 2`,
which the termination theorem shows is enough. -/
def componentwise_distance_value (P dim : ℕ) (corr : String) (D : ℕ → ℕ → ℝ) :
    Option NMat :=
  cd_value_loop P nbLimit (cd_value_body corr D) (P / nbLimit + 2) 0 ⟨P, dim, fun _ _ => 0⟩

/-- The slice body of `componentwise_distance_PLS` in value mode:
`dot(D**2, coeff_pls**2)` for `squar_exp`, `dot(abs(D), abs(coeff_pls))`
otherwise (`dim` is the column count of `D`). -/
def cd_pls_body (corr : String) (dim : ℕ) (D coeff_pls : ℕ → ℕ → ℝ) : ℕ → ℕ → ℝ :=
  fun k c =>
    if corr = "squar_exp" then ∑ l ∈ Finset.range dim, D k l ^ 2 * coeff_pls l c ^ 2
    else ∑ l ∈ Finset.range dim, |D k l| * |coeff_pls l c|

/-- Value mode of `componentwise_distance_PLS` (lines 1329-1346): start from
`np.zeros((P, n_comp))`. -/
def componentwise_distance_PLS_value (P dim n_comp : ℕ) (corr : String)
    (D coeff_pls : ℕ → ℕ → ℝ) : Option NMat :=
  cd_value_loop P nbLimit (cd_pls_body corr dim D coeff_pls) (P / nbLimit + 2) 0
    ⟨P, n_comp, fun _ _ => 0⟩

/-- Error message of `componentwise_distance` when `theta` is missing. -/
def msg_missing_theta : String :=
  "Missing theta to compute spatial derivative of theta cross-spatial correlation distance"

/-- Error message of `componentwise_distance` for the active-subspace kernel. -/
def msg_act_exp_not_implemented : String := "this option is not implemented for active learning"

/-- Derivative mode of `componentwise_distance` (lines 1265-1284):
raise `ValueError` without `theta`; `2 * theta_j * D_ij` for `squar_exp`;
raise `ValueError` for `act_exp`; `theta_j * sign(D_ij)` otherwise. -/
def componentwise_distance_deriv (P dim : ℕ) (corr : String) (D : ℕ → ℕ → ℝ)
    (theta : Option (ℕ → ℝ)) : Except PyErr NMat :=
  match theta with
  | none => Except.error (PyErr.valueError msg_missing_theta)
  | some θ =>
      if corr = "squar_exp" then Except.ok ⟨P, dim, fun k c => 2 * (θ c * D k c)⟩
      else if corr = "act_exp" then Except.error (PyErr.valueError msg_act_exp_not_implemented)
      else Except.ok ⟨P, dim, fun k c => θ c * (if D k c < 0 then -1 else 1)⟩

/-! ## Categorical correlation block of `matrix_data_corr` (lines 478-513)

For one categorical factor with `n = nlevels[i]` levels, the source fills a
symmetric angle matrix `Theta_mat` from the factor's theta slice (in the
order `(0,1), (0,2), ..., (0,n-1), (1,2), ...`), builds a unit
lower-triangular matrix `L` of hyperspherical coordinates, and maps the Gram
matrix `T = L L^T` through the bounded exponential transform.  The angle
matrix is embedded as the function `ang` with `ang m j` the angle
`Theta_mat[m, j]` for `j < m` (the only entries `L` reads). -/

/-- Flat index of the angle for the level pair `(j, m)`, `j < m`, in the
factor's theta slice: the source's counter `v` over the loop order. -/
def triIdx (n j m : ℕ) : ℕ :=
  (∑ t ∈ Finset.range j, (n - 1 - t)) + (m - j - 1)

/-- Homoscedastic angle scaling (line 476): the whole theta slice is scaled
by `0.5 * pi / theta_bounds[1]` before filling `Theta_mat`. -/
def hom_angle (n : ℕ) (θ : ℕ → ℝ) (bhi : ℝ) (m j : ℕ) : ℝ :=
  θ (triIdx n j m) * (0.5 * Real.pi / bhi)

/-- The unit lower-triangular hyperspherical matrix `L` (lines 490-507):
`L[m][j] = cos(ang m j) * prod_{l<j} sin(ang m l)` below the diagonal,
`L[m][m] = prod_{l<m} sin(ang m l)` on it, `0` above. -/
def hyper_L (ang : ℕ → ℕ → ℝ) (m j : ℕ) : ℝ :=
  if j < m then Real.cos (ang m j) * ∏ l ∈ Finset.range j, Real.sin (ang m l)
  else if j = m then ∏ l ∈ Finset.range m, Real.sin (ang m l)
  else 0

/-- The Gram matrix `T = np.dot(L, L.T)` (line 509). -/
def gram_T0 (n : ℕ) (ang : ℕ → ℕ → ℝ) (a b : ℕ) : ℝ :=
  ∑ m ∈ Finset.range n, hyper_L ang a m * hyper_L ang b m

/-- The bounded exponential transform (lines 510-513):
`T = (T - 1) * bhi / 2; T = exp(2*T); k = (1 + exp(-bhi)) / exp(-blo);
T = (T + exp(-bhi)) / k`. -/
def cat_block_T (n : ℕ) (ang : ℕ → ℕ → ℝ) (blo bhi : ℝ) (a b : ℕ) : ℝ :=
  (Real.exp (2 * ((gram_T0 n ang a b - 1) * bhi / 2)) + Real.exp (-bhi)) /
    ((1 + Real.exp (-bhi)) / Real.exp (-blo))

/-- The categorical block `T` built by `matrix_data_corr` for a homoscedastic
factor with `n` levels from its theta slice and the bounds
`(blo, bhi) = theta_bounds`. -/
def matrix_data_corr_block (n : ℕ) (θ : ℕ → ℝ) (blo bhi : ℝ) : ℕ → ℕ → ℝ :=
  cat_block_T n (hom_angle n θ bhi) blo bhi

/-- Positive semi-definiteness of the upper-left `n × n` corner of a matrix
embedded as `ℕ → ℕ → ℝ`. -/
def IsPSDon (n : ℕ) (M : ℕ → ℕ → ℝ) : Prop :=
  ∀ x : ℕ → ℝ, 0 ≤ ∑ a ∈ Finset.range n, ∑ b ∈ Finset.range n, x a * M a b * x b

/-! ## Chunked-loop correctness -/

theorem nbLimit_pos : 0 < nbLimit := by norm_num [nbLimit]

/-- Running the chunk loop with enough fuel applies `g` exactly once to every
row below `P` and leaves every other row alone. -/
theorem chunkWhile_spec (P nb : ℕ) (hnb : 0 < nb) (g : ℕ → ℝ → ℝ) :
    ∀ fuel i r, P + nb ≤ (i + fuel) * nb →
      ∀ k, chunkWhile P nb g fuel i r k = if i * nb ≤ k ∧ k < P then g k (r k) else r k := by
  intro fuel
  induction fuel with
  | zero =>
      intro i r hfuel k
      have hP : P < i * nb := by
        have : P + nb ≤ i * nb := by simpa using hfuel
        omega
      have : ¬(i * nb ≤ k ∧ k < P) := by
        rintro ⟨h1, h2⟩; omega
      simp [chunkWhile, this]
  | succ fuel ih =>
      intro i r hfuel k
      rw [chunkWhile]
      by_cases hcond : i * nb ≤ P
      · rw [if_pos hcond]
        have hfuel' : P + nb ≤ (i + 1 + fuel) * nb := by
          have : i + (fuel + 1) = i + 1 + fuel := by omega
          rwa [this] at hfuel
        rw [ih (i + 1) (npSliceSet P nb i g r) hfuel' k]
        by_cases hkP : k < P
        · by_cases hk1 : (i + 1) * nb ≤ k
          · have hik : i * nb ≤ k := by nlinarith
            have hns : ¬(k < (i + 1) * nb) := by omega
            simp [npSliceSet, hkP, hk1, hik, hns]
          · have hlt : k < (i + 1) * nb := by omega
            by_cases hik : i * nb ≤ k
            · simp [npSliceSet, hkP, hk1, hik, hlt]
            · simp [npSliceSet, hkP, hk1, hik, hlt]
        · simp [npSliceSet, hkP]
      · rw [if_neg hcond]
        have : ¬(i * nb ≤ k ∧ k < P) := by
          rintro ⟨h1, h2⟩; omega
        simp [this]

/-- A full chunked pass with chunk size `nb > 0` equals the pointwise map on
every row below `P`. -/
theorem chunkPass_eq (P nb : ℕ) (hnb : 0 < nb) (g : ℕ → ℝ → ℝ) (r0 : ℕ → ℝ)
    (k : ℕ) (hk : k < P) : chunkPass P nb g r0 k = g k (r0 k) := by
  have hfuel : P + nb ≤ (0 + (P / nb + 2)) * nb := by
    have h1 := Nat.div_add_mod P nb
    have h2 := Nat.mod_lt P hnb
    have h3 : (P / nb) * nb = nb * (P / nb) := mul_comm _ _
    rw [zero_add, add_mul]
    linarith
  rw [chunkPass, chunkWhile_spec P nb hnb g (P / nb + 2) 0 r0 hfuel k]
  simp [hk]

/-- C3: for every chunking kernel (`abs_exp`, `squar_exp`, `matern52`,
`matern32`), every theta and every distance matrix, the chunked evaluation
with chunk size `nb_limit = 10^4` equals the unchunked single-pass evaluation
of the same closed-form formula on every row, in value mode, gradient mode
and Hessian mode alike; chunk boundaries are not observable in the output.
(`act_exp` performs no chunking, so the property is trivial there.) -/
theorem chunked_eq_unchunked (P C : ℕ) (θ : ℕ → ℝ) (d : ℕ → ℕ → ℝ) (gi hi k : ℕ)
    (hk : k < P) :
    (abs_exp_r P C θ d k = Real.exp (-(theta_dot C θ d k)) ∧
      abs_exp_grad P C θ d gi k = -d k gi * Real.exp (-(theta_dot C θ d k)) ∧
      abs_exp_grad_hess P C θ d gi hi k =
        -d k hi * (-d k gi * Real.exp (-(theta_dot C θ d k)))) ∧
    (squar_exp_r P C θ d k = Real.exp (-(theta_dot C θ d k)) ∧
      squar_exp_grad P C θ d gi k = -d k gi * Real.exp (-(theta_dot C θ d k)) ∧
      squar_exp_grad_hess P C θ d gi hi k =
        -d k hi * (-d k gi * Real.exp (-(theta_dot C θ d k)))) ∧
    (matern52_r P C θ d k =
        (∏ j ∈ Finset.range C,
            (1 + Real.sqrt 5 * (θ j * d k j) + 5 / 3 * (θ j * d k j) ^ 2)) *
          Real.exp (-Real.sqrt 5 * ∑ j ∈ Finset.range C, θ j * d k j) ∧
      matern52_grad P C θ d gi k =
        (m52_fact1 θ d gi k / m52_fact2 θ d gi k - m52_fact3 d gi k) * matern52_r P C θ d k ∧
      matern52_grad_hess P C θ d gi hi k =
        (if hi = gi then
          (10 / 3 * d k hi ^ 2 * m52_fact2 θ d hi k - m52_fact1 θ d hi k ^ 2) /
              m52_fact2 θ d hi k ^ 2 * matern52_r P C θ d k +
            (m52_fact1 θ d hi k / m52_fact2 θ d hi k - m52_fact3 d hi k) *
              matern52_grad P C θ d gi k
        else
          (m52_fact1 θ d hi k / m52_fact2 θ d hi k - m52_fact3 d hi k) *
            matern52_grad P C θ d gi k)) ∧
    (matern32_r P C θ d k =
        (∏ j ∈ Finset.range C, (1 + Real.sqrt 3 * (θ j * d k j))) *
          Real.exp (-Real.sqrt 3 * ∑ j ∈ Finset.range C, θ j * d k j) ∧
      matern32_grad P C θ d gi k =
        m32_fact1 θ d gi k * matern32_r P C θ d k * Real.sqrt 3 * d k gi ∧
      matern32_grad_hess P C θ d gi hi k =
        (if gi = hi then
          matern32_grad P C θ d gi k * m32_fact1 θ d hi k * Real.sqrt 3 * d k hi -
            3 * d k hi ^ 2 / (1 + Real.sqrt 3 * θ hi * d k hi) ^ 2 * matern32_r P C θ d k
        else matern32_grad P C θ d gi k * m32_fact1 θ d hi k * Real.sqrt 3 * d k hi)) := by
  refine ⟨⟨?_, ?_, ?_⟩, ⟨?_, ?_, ?_⟩, ⟨?_, ?_, ?_⟩, ?_, ?_, ?_⟩
  · exact chunkPass_eq _ _ nbLimit_pos _ _ k hk
  · rw [abs_exp_grad, chunkPass_eq _ _ nbLimit_pos _ _ k hk, abs_exp_r,
      chunkPass_eq _ _ nbLimit_pos _ _ k hk]
  · rw [abs_exp_grad_hess, chunkPass_eq _ _ nbLimit_pos _ _ k hk, abs_exp_grad,
      chunkPass_eq _ _ nbLimit_pos _ _ k hk, abs_exp_r, chunkPass_eq _ _ nbLimit_pos _ _ k hk]
  · exact chunkPass_eq _ _ nbLimit_pos _ _ k hk
  · rw [squar_exp_grad, chunkPass_eq _ _ nbLimit_pos _ _ k hk, squar_exp_r,
      chunkPass_eq _ _ nbLimit_pos _ _ k hk]
  · rw [squar_exp_grad_hess, chunkPass_eq _ _ nbLimit_pos _ _ k hk, squar_exp_grad,
      chunkPass_eq _ _ nbLimit_pos _ _ k hk, squar_exp_r, chunkPass_eq _ _ nbLimit_pos _ _ k hk]
  · exact chunkPass_eq _ _ nbLimit_pos _ _ k hk
  · rw [matern52_grad, chunkPass_eq _ _ nbLimit_pos _ _ k hk]
  · rw [matern52_grad_hess, chunkPass_eq _ _ nbLimit_pos _ _ k hk]
  · exact chunkPass_eq _ _ nbLimit_pos _ _ k hk
  · rw [matern32_grad, chunkPass_eq _ _ nbLimit_pos _ _ k hk]
  · rw [matern32_grad_hess, chunkPass_eq _ _ nbLimit_pos _ _ k hk]

/-! ## Kernel value-range lemmas -/

/-- Degree-2 Taylor lower bound of `exp` on the nonnegative axis. -/
theorem one_add_add_sq_half_le_exp {y : ℝ} (hy : 0 ≤ y) :
    1 + y + y ^ 2 / 2 ≤ Real.exp y := by
  have h := Real.sum_le_exp_of_nonneg hy 3
  have hsum : ∑ i ∈ Finset.range 3, y ^ i / (Nat.factorial i : ℝ) = 1 + y + y ^ 2 / 2 := by
    simp [Finset.sum_range_succ, Nat.factorial]
  linarith [hsum ▸ h]

/-- The Matérn 5/2 polynomial factor is dominated by its exponential. -/
theorem m52_factor_le_exp {u : ℝ} (hu : 0 ≤ u) :
    1 + Real.sqrt 5 * u + 5 / 3 * u ^ 2 ≤ Real.exp (Real.sqrt 5 * u) := by
  have hs : (0 : ℝ) ≤ Real.sqrt 5 := Real.sqrt_nonneg 5
  have ht : 0 ≤ Real.sqrt 5 * u := mul_nonneg hs hu
  have h2 := one_add_add_sq_half_le_exp ht
  have hsq : (Real.sqrt 5 * u) ^ 2 = 5 * u ^ 2 := by
    rw [mul_pow, Real.sq_sqrt (by norm_num : (0:ℝ) ≤ 5)]
  nlinarith [sq_nonneg u]

/-- The Matérn 3/2 linear factor is dominated by its exponential. -/
theorem m32_factor_le_exp {u : ℝ} (hu : 0 ≤ u) :
    1 + Real.sqrt 3 * u ≤ Real.exp (Real.sqrt 3 * u) := by
  have h := Real.add_one_le_exp (Real.sqrt 3 * u)
  linarith

/-- C2 (amended): for every kernel, every theta with nonnegative entries and
every distance matrix with nonnegative entries (as produced by the
componentwise-distance preprocessing), every entry of the value-mode output
lies in `(0, 1]`, and equals `1` when `D = 0`; for `act_exp` the bounds hold
for any distance matrix whatsoever (no sign condition) whenever theta passes
the length validation. -/
theorem kernel_value_range (P C : ℕ) (θ : ℕ → ℝ) (d : ℕ → ℕ → ℝ)
    (hθ : ∀ j, 0 ≤ θ j) (hd : ∀ k j, 0 ≤ d k j) (k : ℕ) (hk : k < P) :
    (0 < abs_exp_r P C θ d k ∧ abs_exp_r P C θ d k ≤ 1) ∧
    (0 < squar_exp_r P C θ d k ∧ squar_exp_r P C θ d k ≤ 1) ∧
    (0 < matern52_r P C θ d k ∧ matern52_r P C θ d k ≤ 1) ∧
    (0 < matern32_r P C θ d k ∧ matern32_r P C θ d k ≤ 1) ∧
    ((∀ k2 j, d k2 j = 0) →
      abs_exp_r P C θ d k = 1 ∧ squar_exp_r P C θ d k = 1 ∧
      matern52_r P C θ d k = 1 ∧ matern32_r P C θ d k = 1) ∧
    (∀ (d2 : ℕ → ℕ → ℝ) (nθ : ℕ), C ≠ 0 → nθ % C = 0 →
      ∃ r, act_exp P C nθ θ d2 false = Except.ok r ∧ (0 < r k ∧ r k ≤ 1) ∧
        ((∀ k2 j, d2 k2 j = 0) → r k = 1)) := by
  have hdot : 0 ≤ theta_dot C θ d k :=
    Finset.sum_nonneg fun j _ => mul_nonneg (hθ j) (hd k j)
  have habs : abs_exp_r P C θ d k = Real.exp (-(theta_dot C θ d k)) :=
    chunkPass_eq _ _ nbLimit_pos _ _ k hk
  have hsq : squar_exp_r P C θ d k = Real.exp (-(theta_dot C θ d k)) :=
    chunkPass_eq _ _ nbLimit_pos _ _ k hk
  have h52 : matern52_r P C θ d k =
      (∏ j ∈ Finset.range C,
          (1 + Real.sqrt 5 * (θ j * d k j) + 5 / 3 * (θ j * d k j) ^ 2)) *
        Real.exp (-Real.sqrt 5 * ∑ j ∈ Finset.range C, θ j * d k j) :=
    chunkPass_eq _ _ nbLimit_pos _ _ k hk
  have h32 : matern32_r P C θ d k =
      (∏ j ∈ Finset.range C, (1 + Real.sqrt 3 * (θ j * d k j))) *
        Real.exp (-Real.sqrt 3 * ∑ j ∈ Finset.range C, θ j * d k j) :=
    chunkPass_eq _ _ nbLimit_pos _ _ k hk
  have hu : ∀ j, 0 ≤ θ j * d k j := fun j => mul_nonneg (hθ j) (hd k j)
  have hexp_le : Real.exp (-(theta_dot C θ d k)) ≤ 1 :=
    Real.exp_le_one_iff.mpr (by linarith)
  have h52fac_pos : ∀ j ∈ Finset.range C,
      0 < 1 + Real.sqrt 5 * (θ j * d k j) + 5 / 3 * (θ j * d k j) ^ 2 := by
    intro j _
    have := mul_nonneg (Real.sqrt_nonneg 5) (hu j)
    nlinarith [sq_nonneg (θ j * d k j)]
  have h32fac_pos : ∀ j ∈ Finset.range C, 0 < 1 + Real.sqrt 3 * (θ j * d k j) := by
    intro j _
    have := mul_nonneg (Real.sqrt_nonneg 3) (hu j)
    linarith
  have hsum_exp5 : (∏ j ∈ Finset.range C, Real.exp (Real.sqrt 5 * (θ j * d k j))) =
      Real.exp (Real.sqrt 5 * ∑ j ∈ Finset.range C, θ j * d k j) := by
    rw [← Real.exp_sum, Finset.mul_sum]
  have hsum_exp3 : (∏ j ∈ Finset.range C, Real.exp (Real.sqrt 3 * (θ j * d k j))) =
      Real.exp (Real.sqrt 3 * ∑ j ∈ Finset.range C, θ j * d k j) := by
    rw [← Real.exp_sum, Finset.mul_sum]
  have h52le : matern52_r P C θ d k ≤ 1 := by
    rw [h52]
    have hprod : (∏ j ∈ Finset.range C,
        (1 + Real.sqrt 5 * (θ j * d k j) + 5 / 3 * (θ j * d k j) ^ 2)) ≤
        Real.exp (Real.sqrt 5 * ∑ j ∈ Finset.range C, θ j * d k j) := by
      rw [← hsum_exp5]
      exact Finset.prod_le_prod (fun j hj => (h52fac_pos j hj).le)
        (fun j _ => m52_factor_le_exp (hu j))
    calc (∏ j ∈ Finset.range C,
          (1 + Real.sqrt 5 * (θ j * d k j) + 5 / 3 * (θ j * d k j) ^ 2)) *
          Real.exp (-Real.sqrt 5 * ∑ j ∈ Finset.range C, θ j * d k j)
        ≤ Real.exp (Real.sqrt 5 * ∑ j ∈ Finset.range C, θ j * d k j) *
          Real.exp (-Real.sqrt 5 * ∑ j ∈ Finset.range C, θ j * d k j) :=
          mul_le_mul_of_nonneg_right hprod (Real.exp_pos _).le
      _ = 1 := by rw [← Real.exp_add]; ring_nf; exact Real.exp_zero
  have h32le : matern32_r P C θ d k ≤ 1 := by
    rw [h32]
    have hprod : (∏ j ∈ Finset.range C, (1 + Real.sqrt 3 * (θ j * d k j))) ≤
        Real.exp (Real.sqrt 3 * ∑ j ∈ Finset.range C, θ j * d k j) := by
      rw [← hsum_exp3]
      exact Finset.prod_le_prod (fun j hj => (h32fac_pos j hj).le)
        (fun j _ => m32_factor_le_exp (hu j))
    calc (∏ j ∈ Finset.range C, (1 + Real.sqrt 3 * (θ j * d k j))) *
          Real.exp (-Real.sqrt 3 * ∑ j ∈ Finset.range C, θ j * d k j)
        ≤ Real.exp (Real.sqrt 3 * ∑ j ∈ Finset.range C, θ j * d k j) *
          Real.exp (-Real.sqrt 3 * ∑ j ∈ Finset.range C, θ j * d k j) :=
          mul_le_mul_of_nonneg_right hprod (Real.exp_pos _).le
      _ = 1 := by rw [← Real.exp_add]; ring_nf; exact Real.exp_zero
  refine ⟨⟨habs ▸ Real.exp_pos _, habs ▸ hexp_le⟩,
          ⟨hsq ▸ Real.exp_pos _, hsq ▸ hexp_le⟩,
          ⟨?_, h52le⟩, ⟨?_, h32le⟩, ?_, ?_⟩
  · rw [h52]
    exact mul_pos (Finset.prod_pos h52fac_pos) (Real.exp_pos _)
  · rw [h32]
    exact mul_pos (Finset.prod_pos h32fac_pos) (Real.exp_pos _)
  · intro hzero
    have hdz : theta_dot C θ d k = 0 := by
      simp [theta_dot, hzero]
    refine ⟨by rw [habs, hdz, neg_zero, Real.exp_zero],
            by rw [hsq, hdz, neg_zero, Real.exp_zero], ?_, ?_⟩
    · rw [h52]
      simp [hzero]
    · rw [h32]
      simp [hzero]
  · intro d2 nθ hC hmod
    refine ⟨fun k2 => Real.exp (-(1 / 2) *
        ∑ j ∈ Finset.range (nθ / C), (∑ l ∈ Finset.range C, d2 k2 l * θ (j * C + l)) ^ 2),
      by simp [act_exp, hC, hmod], ⟨Real.exp_pos _, ?_⟩, ?_⟩
    · have hs : 0 ≤ ∑ j ∈ Finset.range (nθ / C),
          (∑ l ∈ Finset.range C, d2 k l * θ (j * C + l)) ^ 2 :=
        Finset.sum_nonneg fun j _ => sq_nonneg _
      exact Real.exp_le_one_iff.mpr (by nlinarith)
    · intro hzero
      simp [hzero]

/-- Witness for C2 at a concrete input. -/
theorem kernel_value_range_witness :
    (∀ j : ℕ, (0:ℝ) ≤ (fun _ => 1 : ℕ → ℝ) j) ∧ (∀ k j : ℕ, (0:ℝ) ≤ (fun _ _ => 0 : ℕ → ℕ → ℝ) k j) ∧
    (0 < abs_exp_r 1 1 (fun _ => 1) (fun _ _ => 0) 0 ∧
      abs_exp_r 1 1 (fun _ => 1) (fun _ _ => 0) 0 ≤ 1) :=
  ⟨fun _ => by norm_num, fun _ _ => le_refl 0,
   (kernel_value_range 1 1 (fun _ => 1) (fun _ _ => 0)
      (fun _ => by norm_num) (fun _ _ => le_refl 0) 0 (by norm_num)).1⟩

/-- Counterexample to C2 as stated: on a distance matrix with a negative
entry (allowed by "any distance matrix D"), `abs_exp` with `theta = [1] ≥ 0`
returns a value strictly greater than `1`, outside `(0, 1]`. -/
theorem kernel_value_range_counterexample :
    1 < abs_exp_r 1 1 (fun _ => 1) (fun _ _ => -1) 0 := by
  rw [abs_exp_r, chunkPass_eq _ _ nbLimit_pos _ _ 0 (by norm_num)]
  have : theta_dot 1 (fun _ => 1) (fun _ _ => -1) 0 = -1 := by
    simp [theta_dot]
  rw [this]
  norm_num


/-! ## Distance-engine lemmas -/

theorem foldl_append_eq_flatMap {α β : Type} (f : α → List β) (l : List α) :
    ∀ init : List β, l.foldl (fun acc k => acc ++ f k) init = init ++ l.flatMap f := by
  induction l with
  | nil => intro init; simp
  | cons a t ih => intro init; simp [List.foldl_cons, ih]

/-- The slice-filling loop of self-mode `cross_distances` produces exactly the
nested enumeration over all outer indices. -/
theorem cross_distances_self_eq_spec (X : List (List ℝ)) :
    cross_distances_self X = cross_distances_selfSpec X := by
  rw [cross_distances_self, cross_distances_selfSpec, foldl_append_eq_flatMap, List.nil_append]
  rcases Nat.eq_zero_or_pos X.length with h | h
  · rw [h]
  · have hn : X.length = (X.length - 1) + 1 := (Nat.succ_pred_eq_of_pos h).symm
    have hlast : selfBlock X (X.length - 1) = [] := by
      rw [selfBlock]
      have h0 : X.length - (X.length - 1 + 1) = 0 := by omega
      rw [h0]
      simp
    conv_rhs => rw [hn]
    rw [List.range_succ]
    simp [hlast]

theorem length_flatMap_range {α : Type} (f : ℕ → List α) :
    ∀ m : ℕ, ((List.range m).flatMap f).length = ∑ i ∈ Finset.range m, (f i).length := by
  intro m
  induction m with
  | zero => simp
  | succ m ih => simp [List.range_succ, Finset.sum_range_succ, ih]

/-- Self mode returns exactly `n (n - 1) / 2` pairs. -/
theorem cross_distances_self_length (X : List (List ℝ)) :
    (cross_distances_self X).length = X.length * (X.length - 1) / 2 := by
  rw [cross_distances_self_eq_spec, cross_distances_selfSpec, length_flatMap_range]
  have hblock : ∀ i, (selfBlock X i).length = X.length - 1 - i := by
    intro i
    rw [selfBlock, List.length_map, List.length_range']
    omega
  rw [Finset.sum_congr rfl fun i _ => hblock i]
  rw [Finset.sum_range_reflect (fun i => i) X.length]
  exact Finset.sum_range_id X.length

/-- Membership characterization of self-mode `cross_distances`: the output
holds exactly the pairs `i < j < n` with row `X[i] - X[j]`. -/
theorem mem_cross_distances_self (X : List (List ℝ)) (i j : ℕ) (v : List ℝ) :
    ((i, j), v) ∈ cross_distances_self X ↔
      i < j ∧ j < X.length ∧ v = subRow (row X i) (row X j) := by
  rw [cross_distances_self_eq_spec, cross_distances_selfSpec, List.mem_flatMap]
  constructor
  · rintro ⟨a, ha, hmem⟩
    rw [selfBlock, List.mem_map] at hmem
    obtain ⟨jj, hjj, heq⟩ := hmem
    rw [List.mem_range'] at hjj
    obtain ⟨t, ht, rfl⟩ := hjj
    simp only [Prod.mk.injEq] at heq
    obtain ⟨⟨rfl, rfl⟩, rfl⟩ := heq
    refine ⟨by omega, by omega, rfl⟩
  · rintro ⟨hij, hjn, rfl⟩
    refine ⟨i, by rw [List.mem_range]; omega, ?_⟩
    rw [selfBlock, List.mem_map]
    refine ⟨j, ?_, rfl⟩
    rw [List.mem_range']
    exact ⟨j - (i + 1), by omega, by omega⟩

/-- Negating a difference row swaps its operands. -/
theorem subRow_neg (x y : List ℝ) :
    (subRow x y).map (fun a => -a) = subRow y x := by
  induction x generalizing y with
  | nil => cases y <;> simp [subRow]
  | cons a t ih =>
      cases y with
      | nil => simp [subRow]
      | cons b u =>
          simp only [subRow, List.zipWith_cons_cons, List.map_cons]
          congr 1
          · ring
          · exact ih u

/-- C4: self-mode `cross_distances` returns exactly `n(n-1)/2` pairs in nested
ascending order — it equals the nested enumeration with outer `i` ascending
and inner `j > i` ascending, each pair carrying `X[i] - X[j]`, and its pairs
are exactly `{(i,j) | i < j < n}` with that row — and on
`X = [[0,0],[1,0],[0,1]]` it returns pairs `(0,1), (0,2), (1,2)` with rows
`[-1,0], [0,-1], [1,-1]` in that exact order. -/
theorem cross_distances_self_correct :
    (∀ X : List (List ℝ),
      cross_distances_self X = cross_distances_selfSpec X ∧
      (cross_distances_self X).length = X.length * (X.length - 1) / 2 ∧
      (∀ i j v, ((i, j), v) ∈ cross_distances_self X ↔
        i < j ∧ j < X.length ∧ v = subRow (row X i) (row X j))) ∧
    cross_distances_self [[0, 0], [1, 0], [0, 1]] =
      [((0, 1), [-1, 0]), ((0, 2), [0, -1]), ((1, 2), [1, -1])] := by
  refine ⟨fun X => ⟨cross_distances_self_eq_spec X, cross_distances_self_length X,
    fun i j v => mem_cross_distances_self X i j v⟩, ?_⟩
  norm_num [cross_distances_self, selfBlock, row, subRow, List.range_succ, List.range']

/-- C5: cross-mode `cross_distances` returns all `n*m` pairs in row-major
order, the `k`-th entry being the pair `(k / m, k % m)` with row
`X[k / m] - Y[k % m]`; consequently the self-mode row of a pair `(i, j)` is
the negation of the cross-mode row of `(j, i)` for `Y = X`. -/
theorem cross_distances_cross_correct :
    (∀ X Y : List (List ℝ), (cross_distances_cross X Y).length = X.length * Y.length) ∧
    (∀ X Y : List (List ℝ), ∀ k, k < X.length * Y.length →
      (cross_distances_cross X Y).getD k ((0, 0), []) =
        ((k / Y.length, k % Y.length),
         subRow (row X (k / Y.length)) (row Y (k % Y.length)))) ∧
    (∀ X : List (List ℝ), ∀ i j v, ((i, j), v) ∈ cross_distances_self X →
      ((j, i), v.map (fun a => -a)) ∈ cross_distances_cross X X) := by
  refine ⟨fun X Y => by simp [cross_distances_cross], ?_, ?_⟩
  · intro X Y k hk
    have hlen : k < (cross_distances_cross X Y).length := by
      simpa [cross_distances_cross] using hk
    rw [List.getD_eq_getElem _ _ hlen]
    simp [cross_distances_cross]
  · intro X i j v hmem
    obtain ⟨hij, hjn, rfl⟩ := (mem_cross_distances_self X i j v).mp hmem
    rw [cross_distances_cross, List.mem_map]
    refine ⟨j * X.length + i, ?_, ?_⟩
    · rw [List.mem_range]
      have h1 : j + 1 ≤ X.length := hjn
      have h2 : i < X.length := lt_trans hij hjn
      calc j * X.length + i < j * X.length + X.length := by omega
        _ = (j + 1) * X.length := by ring
        _ ≤ X.length * X.length := by
            exact Nat.mul_le_mul_right _ h1
    · have h2 : i < X.length := lt_trans hij hjn
      have hn : 0 < X.length := by omega
      have hdm : j * X.length + i = X.length * j + i := by ring
      have hdiv : (j * X.length + i) / X.length = j := by
        rw [hdm, Nat.mul_add_div hn, Nat.div_eq_of_lt h2, add_zero]
      have hmod : (j * X.length + i) % X.length = i := by
        rw [hdm, Nat.mul_add_mod, Nat.mod_eq_of_lt h2]
      rw [hdiv, hmod, subRow_neg]

/-! ## Gower lemmas -/

theorem sum_range_desc (n : ℕ) :
    ∑ k ∈ Finset.range n, (n - 1 - k) = n * (n - 1) / 2 := by
  rw [Finset.sum_range_reflect (fun i => i) n]
  exact Finset.sum_range_id n

/-- Every row of the self-mode Gower output is `gower_row` at some pair
`k < j < n`. -/
theorem mem_gower_self (n d : ℕ) (X : ℕ → ℕ → ℝ) (catf : ℕ → Bool) (pr : List ℝ)
    (h : pr ∈ gower_componentwise_distances_self n d X catf) :
    ∃ k j, k < j ∧ j < n ∧ pr = gower_row n d X catf k j := by
  rw [gower_componentwise_distances_self, foldl_append_eq_flatMap, List.nil_append,
    List.mem_flatMap] at h
  obtain ⟨k, hk, hmem⟩ := h
  rw [List.mem_range] at hk
  rw [List.mem_map] at hmem
  obtain ⟨j, hj, rfl⟩ := hmem
  rw [List.mem_range'] at hj
  obtain ⟨t, ht, rfl⟩ := hj
  exact ⟨k, k + 1 + 1 * t, by omega, by omega, rfl⟩

/-- A degenerate column maximum forces a degenerate range: `num_ranges` is
already `0` whenever `num_max` is. -/
theorem gower_num_range_zero (n : ℕ) (X : ℕ → ℕ → ℝ) (c : ℕ)
    (h : gower_num_max n X c = 0 ∨ gower_num_range n X c = 0) :
    gower_num_range n X c = 0 := by
  rcases h with h | h
  · rw [gower_num_range, gower_num_max] at *
    simp [h]
  · exact h

/-- C8: in both modes of `gower_componentwise_distances`, every continuous
column with a degenerate normalizer (zero column maximum or zero range)
contributes a zero distance for every pair, never a division by zero; the
output shape (one row of width `d` per pair, `n(n-1)/2` rows in self mode and
`n*m` rows in cross mode) holds for any categorical mask, including the
all-continuous and all-categorical cases. -/
theorem gower_degenerate_safe (n m d : ℕ) (X Y : ℕ → ℕ → ℝ) (catf : ℕ → Bool) :
    (∀ c, catf c = false → (gower_num_max n X c = 0 ∨ gower_num_range n X c = 0) →
      ∀ pr ∈ gower_componentwise_distances_self n d X catf, pr.getD c 0 = 0) ∧
    (gower_componentwise_distances_self n d X catf).length = n * (n - 1) / 2 ∧
    (∀ pr ∈ gower_componentwise_distances_self n d X catf, pr.length = d) ∧
    (∀ c, catf c = false → (gower_num_max m Y c = 0 ∨ gower_num_range m Y c = 0) →
      ∀ pr ∈ gower_componentwise_distances_cross n m d X Y catf, pr.getD c 0 = 0) ∧
    (gower_componentwise_distances_cross n m d X Y catf).length = n * m ∧
    (∀ pr ∈ gower_componentwise_distances_cross n m d X Y catf, pr.length = d) := by
  refine ⟨?_, ?_, ?_, ?_, ?_, ?_⟩
  · intro c hcf hdeg pr hpr
    obtain ⟨k, j, _, _, rfl⟩ := mem_gower_self n d X catf pr hpr
    by_cases hcd : c < d
    · have hlen : c < (gower_row n d X catf k j).length := by
        rw [gower_row, List.length_map, List.length_range]
        exact hcd
      rw [List.getD_eq_getElem _ _ hlen]
      simp only [gower_row, List.getElem_map, List.getElem_range]
      rw [gower_pair_entry, if_neg (by simp [hcf]),
        if_neg (by simp [gower_num_range_zero n X c hdeg])]
    · have hlen : (gower_row n d X catf k j).length ≤ c := by
        rw [gower_row, List.length_map, List.length_range]
        omega
      rw [List.getD_eq_default _ _ hlen]
  · rw [gower_componentwise_distances_self, foldl_append_eq_flatMap, List.nil_append,
      length_flatMap_range]
    have hblock : ∀ k, ((List.range' (k + 1) (n - (k + 1))).map
        (gower_row n d X catf k)).length = n - 1 - k := by
      intro k
      rw [List.length_map, List.length_range']
      omega
    rw [Finset.sum_congr rfl fun k _ => hblock k]
    rcases Nat.eq_zero_or_pos n with h | h
    · simp [h]
    · obtain ⟨m, rfl⟩ : ∃ m, n = m + 1 := ⟨n - 1, by omega⟩
      have hstep : ∑ k ∈ Finset.range (m + 1), (m + 1 - 1 - k) =
          ∑ k ∈ Finset.range m, (m + 1 - 1 - k) := by
        rw [Finset.sum_range_succ]
        simp
      calc ∑ k ∈ Finset.range (m + 1 - 1), (m + 1 - 1 - k)
          = ∑ k ∈ Finset.range m, (m + 1 - 1 - k) := by norm_num
        _ = ∑ k ∈ Finset.range (m + 1), (m + 1 - 1 - k) := hstep.symm
        _ = (m + 1) * (m + 1 - 1) / 2 := sum_range_desc (m + 1)
  · intro pr hpr
    obtain ⟨k, j, _, _, rfl⟩ := mem_gower_self n d X catf pr hpr
    rw [gower_row, List.length_map, List.length_range]
  · intro c hcf hdeg pr hpr
    rw [gower_componentwise_distances_cross, List.mem_map] at hpr
    obtain ⟨k, _, rfl⟩ := hpr
    by_cases hcd : c < d
    · have hlen : c < ((List.range d).map
          (gower_cross_pair_entry m X Y catf (k / m) (k % m))).length := by
        rw [List.length_map, List.length_range]
        exact hcd
      rw [List.getD_eq_getElem _ _ hlen]
      simp only [List.getElem_map, List.getElem_range]
      rw [gower_cross_pair_entry, if_neg (by simp [hcf]),
        if_neg (by simp [gower_num_range_zero m Y c hdeg])]
    · have hlen : ((List.range d).map
          (gower_cross_pair_entry m X Y catf (k / m) (k % m))).length ≤ c := by
        rw [List.length_map, List.length_range]
        omega
      rw [List.getD_eq_default _ _ hlen]
  · rw [gower_componentwise_distances_cross, List.length_map, List.length_range]
  · intro pr hpr
    rw [gower_componentwise_distances_cross, List.mem_map] at hpr
    obtain ⟨k, _, rfl⟩ := hpr
    rw [List.length_map, List.length_range]

/-- Witness for C8 at a concrete input, exercising both modes. -/
theorem gower_degenerate_safe_witness :
    ((fun _ => false : ℕ → Bool) 0 = false) ∧
    (gower_num_max 2 (fun _ _ => 0) 0 = 0 ∨ gower_num_range 2 (fun _ _ => 0) 0 = 0) ∧
    (∀ pr ∈ gower_componentwise_distances_self 2 1 (fun _ _ => 0) (fun _ => false),
      pr.getD 0 0 = 0) ∧
    (∀ pr ∈ gower_componentwise_distances_cross 2 1 1 (fun _ _ => 0) (fun _ _ => 0)
        (fun _ => false),
      pr.getD 0 0 = 0) :=
  ⟨rfl, Or.inl (by norm_num [gower_num_max, colList, listMax, List.range_succ]),
   (gower_degenerate_safe 2 1 1 (fun _ _ => 0) (fun _ _ => 0) (fun _ => false)).1 0 rfl
     (Or.inl (by norm_num [gower_num_max, colList, listMax, List.range_succ])),
   (gower_degenerate_safe 2 1 1 (fun _ _ => 0) (fun _ _ => 0) (fun _ => false)).2.2.2.1 0 rfl
     (Or.inl (by norm_num [gower_num_max, colList, listMax, List.range_succ]))⟩

/-! ## Frame effects (C9) -/

/-- C9 (amended): `cross_distances` (both modes), `differences` and self-mode
`gower_componentwise_distances` leave the caller's arrays unchanged
(`cross_distances`/`differences` only read; gower copies `X` via `astype`);
cross-mode `gower_componentwise_distances` leaves `X` unchanged but
overwrites the continuous in-range entries of the caller's `Y` with their
max-normalized values, leaving categorical and out-of-range entries alone. -/
theorem engine_mutation (m d : ℕ) (Y : ℕ → ℕ → ℝ) (catf : ℕ → Bool) (i c : ℕ) :
    (∀ X : List (List ℝ), post_X_unchanged X = X) ∧
    (∀ X : ℕ → ℕ → ℝ, gower_post_X X = X) ∧
    ((catf c = true ∨ d ≤ c ∨ m ≤ i) → gower_cross_post_Y m d Y catf i c = Y i c) ∧
    (i < m → c < d → catf c = false →
      gower_cross_post_Y m d Y catf i c =
        (if gower_num_max m Y c ≠ 0 then Y i c / gower_num_max m Y c else 0)) := by
  refine ⟨fun X => rfl, fun X => rfl, ?_, ?_⟩
  · intro h
    rw [gower_cross_post_Y, if_neg]
    rintro ⟨h1, h2, h3⟩
    rcases h with h | h | h
    · rw [h3] at h; exact Bool.false_ne_true h
    · omega
    · omega
  · intro h1 h2 h3
    rw [gower_cross_post_Y, if_pos ⟨h1, h2, h3⟩]

/-- Witness for C9 at a concrete input. -/
theorem engine_mutation_witness :
    ((0:ℕ) < 1 ∧ (0:ℕ) < 1 ∧ (fun _ => false : ℕ → Bool) 0 = false) ∧
    gower_cross_post_Y 1 1 (fun _ _ => 2) (fun _ => false) 0 0 =
      (if gower_num_max 1 (fun _ _ => 2) 0 ≠ 0 then
        (fun _ _ => (2:ℝ)) 0 0 / gower_num_max 1 (fun _ _ => 2) 0 else 0) :=
  ⟨⟨one_pos, one_pos, rfl⟩,
   (engine_mutation 1 1 (fun _ _ => 2) (fun _ => false) 0 0).2.2.2 one_pos one_pos rfl⟩

/-- Counterexample to C9 as stated: cross-mode
`gower_componentwise_distances` does mutate the caller's `y` — with a single
continuous column holding the value `2`, the caller's entry is `1` (its
max-normalized value) after the call, not `2`. -/
theorem engine_mutation_counterexample :
    gower_cross_post_Y 1 1 (fun _ _ => 2) (fun _ => false) 0 0 ≠ (2:ℝ) := by
  have hmax : gower_num_max 1 (fun _ _ => (2:ℝ)) 0 = 2 := by
    norm_num [gower_num_max, colList, listMax, List.range_succ]
  rw [gower_cross_post_Y, if_pos ⟨one_pos, one_pos, rfl⟩, if_pos (by rw [hmax]; norm_num),
    hmax]
  norm_num

/-! ## Error handling (C7) -/

/-- C7 (amended): a spatial derivative requested without its auxiliary input
fails loudly — `componentwise_distance` with `return_derivative=True` raises
`ValueError` when `theta` is missing and `ValueError` for the `act_exp`
kernel; and `act_exp` raises the "not available" `ValueError` whenever
`derivative_params` is supplied, provided `n_components > 0` and theta passes
the length validation (otherwise the earlier length check raises first). -/
theorem derivative_error_handling :
    (∀ (P dim : ℕ) (corr : String) (D : ℕ → ℕ → ℝ),
      componentwise_distance_deriv P dim corr D none =
        Except.error (PyErr.valueError msg_missing_theta)) ∧
    (∀ (P dim : ℕ) (D : ℕ → ℕ → ℝ) (θ : ℕ → ℝ),
      componentwise_distance_deriv P dim "act_exp" D (some θ) =
        Except.error (PyErr.valueError msg_act_exp_not_implemented)) ∧
    (∀ (P C nθ : ℕ) (θ : ℕ → ℝ) (d : ℕ → ℕ → ℝ), C ≠ 0 → nθ % C = 0 →
      act_exp P C nθ θ d true =
        Except.error (PyErr.valueError msg_jacobian_not_available)) := by
  refine ⟨fun P dim corr D => rfl, fun P dim D θ => by rfl, ?_⟩
  intro P C nθ θ d hC hmod
  simp [act_exp, hC, hmod]

/-- Witness for C7 at a concrete input. -/
theorem derivative_error_handling_witness :
    ((1:ℕ) ≠ 0 ∧ (0:ℕ) % 1 = 0) ∧
    act_exp 1 1 0 (fun _ => 0) (fun _ _ => 0) true =
      Except.error (PyErr.valueError msg_jacobian_not_available) :=
  ⟨⟨one_ne_zero, rfl⟩,
   derivative_error_handling.2.2 1 1 0 (fun _ => 0) (fun _ _ => 0) one_ne_zero rfl⟩

/-- Counterexample to C7 as stated: with a theta whose length is not a
multiple of the component count, a call to `act_exp` with
`derivative_params` supplied raises the plain length `Exception`, not the
"not available" `ValueError`. -/
theorem derivative_error_handling_counterexample :
    act_exp 1 2 1 (fun _ => 0) (fun _ _ => 0) true =
      Except.error (PyErr.genericError msg_theta_multiple) ∧
    ¬(act_exp 1 2 1 (fun _ => 0) (fun _ _ => 0) true =
      Except.error (PyErr.valueError msg_jacobian_not_available)) := by
  constructor
  · simp [act_exp]
  · simp [act_exp]

/-! ## `squar_exp` full-Hessian shape (C6) -/

/-- C6 (code bug): with both a gradient context and a Hessian context
supplied, `squar_exp` sizes `d2r` from the transposed `r`, so its first
dimension is `1` rather than the number of pairs: at the failing input with
two pairs the call raises `ValueError`, and even a successful call returns an
array whose first dimension is `1`. -/
theorem squar_exp_hess_shape_bug :
    squar_exp_hess 2 1 (fun _ => 1) (fun _ _ => 1) (fun _ _ => 1) (fun _ _ => 1) =
      Except.error (PyErr.valueError msg_set_element_sequence) ∧
    (∀ (θ : ℕ → ℝ) (d ddg ddh : ℕ → ℕ → ℝ), ∃ A : Arr3,
      squar_exp_hess 1 1 θ d ddg ddh = Except.ok A ∧ A.d0 = 1 ∧
      A.entry 0 0 0 = -(2 * θ 0 - ddh 0 0 * ddh 0 0) * squar_exp_r 1 1 θ d 0) := by
  refine ⟨by simp [squar_exp_hess], ?_⟩
  intro θ d ddg ddh
  refine ⟨_, rfl, rfl, ?_⟩
  simp [squar_exp_hess]

/-! ## Termination of the value-mode `while True` loops (C10) -/

theorem cd_value_loop_total (P nb : ℕ) (f : ℕ → ℕ → ℝ) :
    ∀ fuel i M, P < (i + fuel) * nb →
      ∃ M' : NMat, M'.rows = M.rows ∧ M'.cols = M.cols ∧
        ∀ g, fuel + 1 ≤ g → cd_value_loop P nb f g i M = some M' := by
  intro fuel
  induction fuel with
  | zero =>
      intro i M h
      refine ⟨M, rfl, rfl, ?_⟩
      intro g hg
      obtain ⟨g', rfl⟩ : ∃ g', g = g' + 1 := ⟨g - 1, by omega⟩
      rw [cd_value_loop, if_pos (by simpa using h)]
  | succ fuel ih =>
      intro i M h
      by_cases hc : i * nb > P
      · refine ⟨M, rfl, rfl, ?_⟩
        intro g hg
        obtain ⟨g', rfl⟩ : ∃ g', g = g' + 1 := ⟨g - 1, by omega⟩
        rw [cd_value_loop, if_pos hc]
      · have h' : P < (i + 1 + fuel) * nb := by
          have heq : i + 1 + fuel = i + (fuel + 1) := by omega
          rw [heq]
          exact h
        obtain ⟨M', h1, h2, h3⟩ := ih (i + 1) (nmatSliceSet nb i f M) h'
        refine ⟨M', h1.trans rfl, h2.trans rfl, ?_⟩
        intro g hg
        obtain ⟨g', rfl⟩ : ∃ g', g = g' + 1 := ⟨g - 1, by omega⟩
        rw [cd_value_loop, if_neg hc]
        exact h3 g' (by omega)

theorem fuel_sufficient (P nb : ℕ) (hnb : 0 < nb) : P < (0 + (P / nb + 1)) * nb := by
  have h1 := Nat.div_add_mod P nb
  have h2 := Nat.mod_lt P hnb
  have h3 : (P / nb) * nb = nb * (P / nb) := mul_comm _ _
  rw [zero_add, add_mul]
  linarith

/-- C10: in value mode, the `while True` loops of `componentwise_distance`
and `componentwise_distance_PLS` terminate for every input: the exit
condition holds after at most `P / 10^4 + 1` chunk iterations (any fuel at
least `P / 10^4 + 2` yields the same result), and the returned `D_corr` has
exactly `P` rows (`dim` resp. `n_comp` columns), for every kernel name. -/
theorem componentwise_distance_value_total (P dim n_comp : ℕ) (corr : String)
    (D coeff_pls : ℕ → ℕ → ℝ) :
    (∃ M : NMat, componentwise_distance_value P dim corr D = some M ∧
      M.rows = P ∧ M.cols = dim ∧
      ∀ fuel, P / nbLimit + 2 ≤ fuel →
        cd_value_loop P nbLimit (cd_value_body corr D) fuel 0 ⟨P, dim, fun _ _ => 0⟩ =
          some M) ∧
    (∃ M : NMat, componentwise_distance_PLS_value P dim n_comp corr D coeff_pls = some M ∧
      M.rows = P ∧ M.cols = n_comp ∧
      ∀ fuel, P / nbLimit + 2 ≤ fuel →
        cd_value_loop P nbLimit (cd_pls_body corr dim D coeff_pls) fuel 0
          ⟨P, n_comp, fun _ _ => 0⟩ = some M) := by
  constructor
  · obtain ⟨M, h1, h2, h3⟩ := cd_value_loop_total P nbLimit (cd_value_body corr D)
      (P / nbLimit + 1) 0 ⟨P, dim, fun _ _ => 0⟩ (fuel_sufficient P nbLimit nbLimit_pos)
    exact ⟨M, h3 (P / nbLimit + 2) (le_refl _), h1, h2, h3⟩
  · obtain ⟨M, h1, h2, h3⟩ := cd_value_loop_total P nbLimit (cd_pls_body corr dim D coeff_pls)
      (P / nbLimit + 1) 0 ⟨P, n_comp, fun _ _ => 0⟩ (fuel_sufficient P nbLimit nbLimit_pos)
    exact ⟨M, h3 (P / nbLimit + 2) (le_refl _), h1, h2, h3⟩

/-- Witness for C5 at a concrete input. -/
theorem cross_distances_cross_witness :
    (0 : ℕ) < ([[(5:ℝ)]] : List (List ℝ)).length * ([[(2:ℝ)]] : List (List ℝ)).length ∧
    (cross_distances_cross [[(5:ℝ)]] [[(2:ℝ)]]).getD 0 ((0, 0), []) =
      ((0, 0), subRow (row [[(5:ℝ)]] 0) (row [[(2:ℝ)]] 0)) :=
  ⟨by norm_num, cross_distances_cross_correct.2.1 [[(5:ℝ)]] [[(2:ℝ)]] 0 (by norm_num)⟩

/-! ## Hyperspherical construction: rows of `L` are unit vectors -/

/-- `L` vanishes strictly above the diagonal. -/
theorem hyper_L_upper (ang : ℕ → ℕ → ℝ) (a m : ℕ) (h : a < m) :
    hyper_L ang a m = 0 := by
  rw [hyper_L, if_neg (by omega), if_neg (by omega)]

/-- Telescoping identity behind the unit rows: partial sums of
`cos^2 * prod sin^2` close up with the remaining `prod sin^2`. -/
theorem sin_cos_telescope (ang : ℕ → ℕ → ℝ) (a : ℕ) : ∀ p : ℕ,
    (∑ m ∈ Finset.range p,
        Real.cos (ang a m) ^ 2 * ∏ l ∈ Finset.range m, Real.sin (ang a l) ^ 2) +
      ∏ l ∈ Finset.range p, Real.sin (ang a l) ^ 2 = 1 := by
  intro p
  induction p with
  | zero => simp
  | succ p ih =>
      rw [Finset.sum_range_succ, Finset.prod_range_succ]
      have hpyth := Real.sin_sq_add_cos_sq (ang a p)
      linear_combination ih + (∏ l ∈ Finset.range p, Real.sin (ang a l) ^ 2) * hpyth

/-- Each row of `L` has unit Euclidean norm. -/
theorem hyper_L_row_norm (n : ℕ) (ang : ℕ → ℕ → ℝ) (a : ℕ) (ha : a < n) :
    ∑ m ∈ Finset.range n, hyper_L ang a m ^ 2 = 1 := by
  have hsub : Finset.range (a + 1) ⊆ Finset.range n := Finset.range_subset.mpr (by omega)
  have hvanish : ∀ m ∈ Finset.range n, m ∉ Finset.range (a + 1) → hyper_L ang a m ^ 2 = 0 := by
    intro m _ hm
    rw [Finset.mem_range] at hm
    rw [hyper_L_upper ang a m (by omega)]
    norm_num
  rw [← Finset.sum_subset hsub hvanish, Finset.sum_range_succ]
  have hdiag : hyper_L ang a a = ∏ l ∈ Finset.range a, Real.sin (ang a l) := by
    rw [hyper_L, if_neg (by omega), if_pos rfl]
  have hbelow : ∀ m ∈ Finset.range a, hyper_L ang a m ^ 2 =
      Real.cos (ang a m) ^ 2 * ∏ l ∈ Finset.range m, Real.sin (ang a l) ^ 2 := by
    intro m hm
    rw [Finset.mem_range] at hm
    rw [hyper_L, if_pos hm, mul_pow, ← Finset.prod_pow]
  rw [Finset.sum_congr rfl hbelow, hdiag, ← Finset.prod_pow]
  exact sin_cos_telescope ang a a

/-- The Gram matrix is symmetric. -/
theorem gram_T0_symm (n : ℕ) (ang : ℕ → ℕ → ℝ) (a b : ℕ) :
    gram_T0 n ang a b = gram_T0 n ang b a := by
  rw [gram_T0, gram_T0]
  exact Finset.sum_congr rfl fun m _ => mul_comm _ _

/-- The Gram matrix has unit diagonal on the levels. -/
theorem gram_T0_diag (n : ℕ) (ang : ℕ → ℕ → ℝ) (a : ℕ) (ha : a < n) :
    gram_T0 n ang a a = 1 := by
  rw [gram_T0]
  rw [Finset.sum_congr rfl fun m _ => (sq (hyper_L ang a m)).symm]
  exact hyper_L_row_norm n ang a ha

/-- Cauchy-Schwarz on the unit rows: every Gram entry lies in `[-1, 1]`. -/
theorem gram_T0_bounds (n : ℕ) (ang : ℕ → ℕ → ℝ) (a b : ℕ) (ha : a < n) (hb : b < n) :
    -1 ≤ gram_T0 n ang a b ∧ gram_T0 n ang a b ≤ 1 := by
  have hcs := Finset.sum_mul_sq_le_sq_mul_sq (Finset.range n)
    (hyper_L ang a) (hyper_L ang b)
  rw [hyper_L_row_norm n ang a ha, hyper_L_row_norm n ang b hb, one_mul] at hcs
  have hsq : gram_T0 n ang a b ^ 2 ≤ 1 := by rw [gram_T0]; exact hcs
  constructor
  · nlinarith [hsq]
  · nlinarith [hsq]

/-! ## Positive semi-definiteness of the transformed block -/

/-- Hadamard powers of a Gram matrix have nonnegative quadratic form:
the `p`-th entrywise power expands multinomially into a sum of squares. -/
theorem gram_pow_quad_nonneg (n nc p : ℕ) (u : ℕ → ℕ → ℝ) (x : ℕ → ℝ) :
    0 ≤ ∑ a ∈ Finset.range n, ∑ b ∈ Finset.range n,
        x a * (∑ m ∈ Finset.range nc, u a m * u b m) ^ p * x b := by
  have hexpand : ∀ a b : ℕ, (∑ m ∈ Finset.range nc, u a m * u b m) ^ p =
      ∑ g ∈ Fintype.piFinset (fun _ : Fin p => Finset.range nc),
        (∏ s : Fin p, u a (g s)) * ∏ s : Fin p, u b (g s) := by
    intro a b
    rw [Finset.sum_pow']
    exact Finset.sum_congr rfl fun g _ => Finset.prod_mul_distrib
  have step1 : ∑ a ∈ Finset.range n, ∑ b ∈ Finset.range n,
      x a * (∑ m ∈ Finset.range nc, u a m * u b m) ^ p * x b =
      ∑ g ∈ Fintype.piFinset (fun _ : Fin p => Finset.range nc),
        (∑ a ∈ Finset.range n, x a * ∏ s : Fin p, u a (g s)) ^ 2 := by
    have h1 : ∀ a b : ℕ,
        x a * (∑ m ∈ Finset.range nc, u a m * u b m) ^ p * x b =
        ∑ g ∈ Fintype.piFinset (fun _ : Fin p => Finset.range nc),
          (x a * ∏ s : Fin p, u a (g s)) * (x b * ∏ s : Fin p, u b (g s)) := by
      intro a b
      rw [hexpand a b, Finset.mul_sum, Finset.sum_mul]
      exact Finset.sum_congr rfl fun g _ => by ring
    rw [Finset.sum_congr rfl fun a _ => Finset.sum_congr rfl fun b _ => h1 a b]
    rw [Finset.sum_congr rfl fun a (_ : a ∈ Finset.range n) => Finset.sum_comm]
    rw [Finset.sum_comm]
    refine Finset.sum_congr rfl fun g _ => ?_
    rw [sq, Finset.sum_mul_sum]
  rw [step1]
  exact Finset.sum_nonneg fun g _ => sq_nonneg _

/-- The entrywise exponential of a nonnegative multiple of a Gram matrix has
nonnegative quadratic form: expand `exp` into its power series and apply the
Hadamard-power lemma termwise. -/
theorem gram_exp_quad_nonneg (n nc : ℕ) (u : ℕ → ℕ → ℝ) (β : ℝ) (hβ : 0 ≤ β) (x : ℕ → ℝ) :
    0 ≤ ∑ a ∈ Finset.range n, ∑ b ∈ Finset.range n,
        x a * Real.exp (β * ∑ m ∈ Finset.range nc, u a m * u b m) * x b := by
  have hexp : ∀ t : ℝ, Real.exp t = tsum (fun p : ℕ => t ^ p / (Nat.factorial p : ℝ)) := by
    intro t
    rw [Real.exp_eq_exp_ℝ, NormedSpace.exp_eq_tsum_div]
  have hsummable : ∀ a b : ℕ, Summable (fun p : ℕ =>
      x a * ((β * ∑ m ∈ Finset.range nc, u a m * u b m) ^ p / (Nat.factorial p : ℝ)) * x b) :=
    fun a b => ((Real.summable_pow_div_factorial _).mul_left (x a)).mul_right (x b)
  have hterm : ∀ a b : ℕ,
      x a * Real.exp (β * ∑ m ∈ Finset.range nc, u a m * u b m) * x b =
      tsum (fun p : ℕ =>
        x a * ((β * ∑ m ∈ Finset.range nc, u a m * u b m) ^ p / (Nat.factorial p : ℝ)) * x b) := by
    intro a b
    rw [hexp, ← tsum_mul_left, ← tsum_mul_right]
  rw [Finset.sum_congr rfl fun a _ => Finset.sum_congr rfl fun b _ => hterm a b]
  rw [Finset.sum_congr rfl fun a (_ : a ∈ Finset.range n) =>
    (tsum_sum fun b _ => hsummable a b).symm]
  rw [(tsum_sum fun a _ => summable_sum fun b _ => hsummable a b).symm]
  refine tsum_nonneg fun p => ?_
  have hpt : ∀ a b : ℕ,
      x a * ((β * ∑ m ∈ Finset.range nc, u a m * u b m) ^ p / (Nat.factorial p : ℝ)) * x b =
      (β ^ p / (Nat.factorial p : ℝ)) *
        (x a * (∑ m ∈ Finset.range nc, u a m * u b m) ^ p * x b) := by
    intro a b
    rw [mul_pow]
    ring
  rw [Finset.sum_congr rfl fun a _ => Finset.sum_congr rfl fun b _ => hpt a b]
  rw [Finset.sum_congr rfl fun a (_ : a ∈ Finset.range n) =>
    (Finset.mul_sum _ _ _).symm, (Finset.mul_sum _ _ _).symm]
  exact mul_nonneg (div_nonneg (pow_nonneg hβ p) (Nat.cast_nonneg _))
    (gram_pow_quad_nonneg n nc p u x)

/-! ## The bounded exponential transform -/

/-- Closed form of the transform: a positive scalar times
`exp(bhi * T0) * exp(-bhi) + exp(-bhi)`. -/
theorem cat_block_T_eq (n : ℕ) (ang : ℕ → ℕ → ℝ) (blo bhi : ℝ) (a b : ℕ) :
    cat_block_T n ang blo bhi a b =
      Real.exp (-blo) / (1 + Real.exp (-bhi)) *
        (Real.exp (bhi * gram_T0 n ang a b) * Real.exp (-bhi) + Real.exp (-bhi)) := by
  rw [cat_block_T]
  have h1 : 2 * ((gram_T0 n ang a b - 1) * bhi / 2) = bhi * gram_T0 n ang a b + -bhi := by
    ring
  rw [h1, Real.exp_add]
  have hpos1 : (0:ℝ) < 1 + Real.exp (-bhi) := by positivity
  have hpos2 : (0:ℝ) < Real.exp (-blo) := Real.exp_pos _
  field_simp
  ring

/-- The transform is monotone in the Gram entry; with `T0 ∈ [-1, 1]` the
entries land in `[exp(-(blo+bhi)), exp(-blo)]`. -/
theorem cat_block_T_range (n : ℕ) (ang : ℕ → ℕ → ℝ) (blo bhi : ℝ) (hbhi : 0 ≤ bhi)
    (a b : ℕ) (ha : a < n) (hb : b < n) :
    Real.exp (-(blo + bhi)) ≤ cat_block_T n ang blo bhi a b ∧
    cat_block_T n ang blo bhi a b ≤ Real.exp (-blo) := by
  obtain ⟨ht1, ht2⟩ := gram_T0_bounds n ang a b ha hb
  rw [cat_block_T_eq]
  have hc : (0:ℝ) < Real.exp (-blo) / (1 + Real.exp (-bhi)) := by positivity
  have hE1 : Real.exp (-bhi) ≤ Real.exp (bhi * gram_T0 n ang a b) := by
    apply Real.exp_le_exp.mpr
    nlinarith
  have hE2 : Real.exp (bhi * gram_T0 n ang a b) ≤ Real.exp bhi := by
    apply Real.exp_le_exp.mpr
    nlinarith
  have hlow : Real.exp (-blo) / (1 + Real.exp (-bhi)) *
      (Real.exp (-bhi) * Real.exp (-bhi) + Real.exp (-bhi)) = Real.exp (-(blo + bhi)) := by
    have hpos1 : (0:ℝ) < 1 + Real.exp (-bhi) := by positivity
    rw [show -(blo + bhi) = -blo + -bhi by ring, Real.exp_add]
    field_simp
    ring
  have hhigh : Real.exp (-blo) / (1 + Real.exp (-bhi)) *
      (Real.exp bhi * Real.exp (-bhi) + Real.exp (-bhi)) = Real.exp (-blo) := by
    have hpos1 : (0:ℝ) < 1 + Real.exp (-bhi) := by positivity
    rw [← Real.exp_add]
    norm_num
    field_simp
  have hepos : (0:ℝ) < Real.exp (-bhi) := Real.exp_pos _
  constructor
  · calc Real.exp (-(blo + bhi))
        = Real.exp (-blo) / (1 + Real.exp (-bhi)) *
            (Real.exp (-bhi) * Real.exp (-bhi) + Real.exp (-bhi)) := hlow.symm
      _ ≤ Real.exp (-blo) / (1 + Real.exp (-bhi)) *
            (Real.exp (bhi * gram_T0 n ang a b) * Real.exp (-bhi) + Real.exp (-bhi)) :=
          mul_le_mul_of_nonneg_left
            (add_le_add_right (mul_le_mul_of_nonneg_right hE1 hepos.le) _) hc.le
  · calc Real.exp (-blo) / (1 + Real.exp (-bhi)) *
            (Real.exp (bhi * gram_T0 n ang a b) * Real.exp (-bhi) + Real.exp (-bhi))
        ≤ Real.exp (-blo) / (1 + Real.exp (-bhi)) *
            (Real.exp bhi * Real.exp (-bhi) + Real.exp (-bhi)) :=
          mul_le_mul_of_nonneg_left
            (add_le_add_right (mul_le_mul_of_nonneg_right hE2 hepos.le) _) hc.le
      _ = Real.exp (-blo) := hhigh

/-- The diagonal of the transformed block is `exp(-blo)`, not `1`. -/
theorem cat_block_T_diag (n : ℕ) (ang : ℕ → ℕ → ℝ) (blo bhi : ℝ) (a : ℕ) (ha : a < n) :
    cat_block_T n ang blo bhi a a = Real.exp (-blo) := by
  rw [cat_block_T_eq, gram_T0_diag n ang a ha, mul_one, ← Real.exp_add]
  have hpos1 : (0:ℝ) < 1 + Real.exp (-bhi) := by positivity
  norm_num
  field_simp

/-- The transformed block is positive semi-definite: it is a positive
combination of the entrywise exponential of `bhi * T0` (Gram-based) and the
all-ones matrix. -/
theorem cat_block_T_psd (n : ℕ) (ang : ℕ → ℕ → ℝ) (blo bhi : ℝ) (hbhi : 0 ≤ bhi) :
    IsPSDon n (cat_block_T n ang blo bhi) := by
  intro x
  rw [Finset.sum_congr rfl fun a (_ : a ∈ Finset.range n) =>
    Finset.sum_congr rfl fun b _ => by rw [cat_block_T_eq n ang blo bhi a b]]
  have hsplit : ∀ a b : ℕ,
      x a * (Real.exp (-blo) / (1 + Real.exp (-bhi)) *
        (Real.exp (bhi * gram_T0 n ang a b) * Real.exp (-bhi) + Real.exp (-bhi))) * x b =
      (Real.exp (-blo) / (1 + Real.exp (-bhi)) * Real.exp (-bhi)) *
          (x a * Real.exp (bhi * gram_T0 n ang a b) * x b) +
        (Real.exp (-blo) / (1 + Real.exp (-bhi)) * Real.exp (-bhi)) * (x a * x b) := by
    intro a b
    ring
  rw [Finset.sum_congr rfl fun a (_ : a ∈ Finset.range n) =>
    Finset.sum_congr rfl fun b _ => hsplit a b]
  rw [Finset.sum_congr rfl fun a (_ : a ∈ Finset.range n) => Finset.sum_add_distrib]
  rw [Finset.sum_add_distrib]
  have hscal : (0:ℝ) ≤ Real.exp (-blo) / (1 + Real.exp (-bhi)) * Real.exp (-bhi) := by
    positivity
  have hA : 0 ≤ ∑ a ∈ Finset.range n, ∑ b ∈ Finset.range n,
      x a * Real.exp (bhi * gram_T0 n ang a b) * x b := by
    have := gram_exp_quad_nonneg n n (fun a m => hyper_L ang a m) bhi hbhi x
    simpa [gram_T0] using this
  have hB : 0 ≤ ∑ a ∈ Finset.range n, ∑ b ∈ Finset.range n, x a * x b := by
    have : ∑ a ∈ Finset.range n, ∑ b ∈ Finset.range n, x a * x b =
        (∑ a ∈ Finset.range n, x a) ^ 2 := by
      rw [sq, Finset.sum_mul_sum]
    rw [this]
    exact sq_nonneg _
  have h1 : 0 ≤ ∑ a ∈ Finset.range n, ∑ b ∈ Finset.range n,
      Real.exp (-blo) / (1 + Real.exp (-bhi)) * Real.exp (-bhi) *
        (x a * Real.exp (bhi * gram_T0 n ang a b) * x b) := by
    rw [Finset.sum_congr rfl fun a (_ : a ∈ Finset.range n) =>
      (Finset.mul_sum _ _ _).symm, (Finset.mul_sum _ _ _).symm]
    exact mul_nonneg hscal hA
  have h2 : 0 ≤ ∑ a ∈ Finset.range n, ∑ b ∈ Finset.range n,
      Real.exp (-blo) / (1 + Real.exp (-bhi)) * Real.exp (-bhi) * (x a * x b) := by
    rw [Finset.sum_congr rfl fun a (_ : a ∈ Finset.range n) =>
      (Finset.mul_sum _ _ _).symm, (Finset.mul_sum _ _ _).symm]
    exact mul_nonneg hscal hB
  linarith

/-- C1 (amended): for a categorical factor with `L ≥ 2` levels and any theta
slice within the bounds `(blo, bhi)`, `bhi ≥ 0`, the block built by
`matrix_data_corr` after the bounded exponential transform is symmetric,
positive semi-definite, has constant diagonal `exp(-blo)`, and every entry in
`[exp(-(blo+bhi)), exp(-blo)]`; the claimed unit diagonal and range
`[exp(-bhi), 1]` hold exactly in the special case `blo = 0`. -/
theorem matrix_data_corr_block_valid (n : ℕ) (θ : ℕ → ℝ) (blo bhi : ℝ)
    (hn : 2 ≤ n) (hbhi : 0 ≤ bhi) (hθ : ∀ v, blo ≤ θ v ∧ θ v ≤ bhi) :
    (∀ a b, matrix_data_corr_block n θ blo bhi a b = matrix_data_corr_block n θ blo bhi b a) ∧
    (∀ a, a < n → matrix_data_corr_block n θ blo bhi a a = Real.exp (-blo)) ∧
    (∀ a b, a < n → b < n →
      Real.exp (-(blo + bhi)) ≤ matrix_data_corr_block n θ blo bhi a b ∧
      matrix_data_corr_block n θ blo bhi a b ≤ Real.exp (-blo)) ∧
    IsPSDon n (matrix_data_corr_block n θ blo bhi) ∧
    (blo = 0 →
      (∀ a, a < n → matrix_data_corr_block n θ blo bhi a a = 1) ∧
      (∀ a b, a < n → b < n →
        Real.exp (-bhi) ≤ matrix_data_corr_block n θ blo bhi a b ∧
        matrix_data_corr_block n θ blo bhi a b ≤ 1)) := by
  refine ⟨?_, ?_, ?_, ?_, ?_⟩
  · intro a b
    rw [matrix_data_corr_block, cat_block_T, cat_block_T, gram_T0_symm]
  · intro a ha
    exact cat_block_T_diag n (hom_angle n θ bhi) blo bhi a ha
  · intro a b ha hb
    exact cat_block_T_range n (hom_angle n θ bhi) blo bhi hbhi a b ha hb
  · exact cat_block_T_psd n (hom_angle n θ bhi) blo bhi hbhi
  · intro h0
    constructor
    · intro a ha
      calc matrix_data_corr_block n θ blo bhi a a
          = Real.exp (-blo) := cat_block_T_diag n (hom_angle n θ bhi) blo bhi a ha
        _ = 1 := by rw [h0, neg_zero, Real.exp_zero]
    · intro a b ha hb
      obtain ⟨hl, hr⟩ := cat_block_T_range n (hom_angle n θ bhi) blo bhi hbhi a b ha hb
      constructor
      · calc Real.exp (-bhi) = Real.exp (-(blo + bhi)) := by rw [h0]; norm_num
          _ ≤ matrix_data_corr_block n θ blo bhi a b := hl
      · calc matrix_data_corr_block n θ blo bhi a b ≤ Real.exp (-blo) := hr
          _ = 1 := by rw [h0, neg_zero, Real.exp_zero]

/-- Witness for C1 at a concrete input. -/
theorem matrix_data_corr_block_valid_witness :
    (2 ≤ 2 ∧ (0:ℝ) ≤ 2 ∧ ∀ v : ℕ, (1:ℝ) ≤ (fun _ => (1:ℝ)) v ∧ (fun _ => (1:ℝ)) v ≤ 2) ∧
    (∀ a, a < 2 → matrix_data_corr_block 2 (fun _ => (1:ℝ)) 1 2 a a = Real.exp (-1)) :=
  ⟨⟨le_refl 2, by norm_num, fun v => by norm_num⟩,
   (matrix_data_corr_block_valid 2 (fun _ => (1:ℝ)) 1 2 (le_refl 2) (by norm_num)
      (fun v => by norm_num)).2.1⟩

/-- Counterexample to C1 as stated: with `theta_bounds = (1, 2)` and a theta
slice inside the bounds, the diagonal of the built block is `exp(-1) ≠ 1` —
the block does not have unit diagonal (and its entries fall below
`exp(-bound)`), because the transform divides by
`(1 + exp(-bhi)) / exp(-blo)`. -/
theorem matrix_data_corr_block_counterexample :
    matrix_data_corr_block 2 (fun _ => (1:ℝ)) 1 2 0 0 ≠ 1 := by
  rw [matrix_data_corr_block, cat_block_T_diag 2 _ 1 2 0 (by norm_num)]
  exact (Real.exp_lt_one_iff.mpr (by norm_num)).ne

/-- Witness for C10 at a concrete input. -/
theorem componentwise_distance_value_total_witness :
    ∃ M : NMat, componentwise_distance_value 1 1 "abs_exp" (fun _ _ => 0) = some M ∧
      M.rows = 1 ∧ M.cols = 1 ∧
      ∀ fuel, 1 / nbLimit + 2 ≤ fuel →
        cd_value_loop 1 nbLimit (cd_value_body "abs_exp" (fun _ _ => 0)) fuel 0
          ⟨1, 1, fun _ _ => 0⟩ = some M :=
  (componentwise_distance_value_total 1 1 1 "abs_exp" (fun _ _ => 0) (fun _ _ => 0)).1

/-- Witness for C3 at a concrete input. -/
theorem chunked_eq_unchunked_witness :
    (0 : ℕ) < 3 ∧
    (abs_exp_r 3 2 (fun _ => 1) (fun _ _ => 1) 0 =
        Real.exp (-(theta_dot 2 (fun _ => 1) (fun _ _ => 1) 0)) ∧
      abs_exp_grad 3 2 (fun _ => 1) (fun _ _ => 1) 0 0 =
        -(1 : ℝ) * Real.exp (-(theta_dot 2 (fun _ => 1) (fun _ _ => 1) 0)) ∧
      abs_exp_grad_hess 3 2 (fun _ => 1) (fun _ _ => 1) 0 1 0 =
        -(1 : ℝ) * (-(1 : ℝ) * Real.exp (-(theta_dot 2 (fun _ => 1) (fun _ _ => 1) 0)))) :=
  ⟨by norm_num,
   (chunked_eq_unchunked 3 2 (fun _ => 1) (fun _ _ => 1) 0 1 0 (by norm_num)).1⟩
